import Mathlib

/-!
Verification of the structured-output recovery layer of the `abc` script
collection.  The definitions below are shallow embeddings of the Python
functions in `templates/scripts/generate_flashcards.py`,
`templates/scripts/transcribe.py` and `templates/scripts/lib/common.py`.
Strings are modelled as `List Char`; machine calls to external services are
modelled as explicit scripts (functions from the attempt number to the
scripted response).
-/

namespace Abc

/-! ## ObjectExtractor

Embedding of the JSON-extraction step of `generate_flashcards`
(`generate_flashcards.py`, lines 457-474): find the index of the first `{`
(`result.find('{')`), then scan forward with a brace-depth counter
(`brace_count`), increment on `{`, decrement on `}`, and stop at the
character where the counter returns to zero (`end_idx = i + 1`).  If the
loop completes without the counter returning to zero, `end_idx` keeps its
initial value `start_idx` and the extracted substring is empty. -/

/-- `result.find('\x7b')`: index of the first opening brace, if any. -/
def findBrace : List Char → Option Nat
  | [] => none
  | c :: rest => if c = '{' then some 0 else (findBrace rest).map (· + 1)

/-- The brace-depth scan of `generate_flashcards` starting with counter
`count` at (relative) position `i`: returns `some n` where `n` is the length
of the scanned prefix when the counter returns to zero, `none` if the list is
exhausted first. -/
def scanEnd : List Char → Int → Nat → Option Nat
  | [], _, _ => none
  | c :: cs, count, i =>
    if c = '{' then scanEnd cs (count + 1) (i + 1)
    else if c = '}' then
      if count - 1 = 0 then some (i + 1) else scanEnd cs (count - 1) (i + 1)
    else scanEnd cs count (i + 1)

/-- The object-extraction step: `none` models the `ValueError` raised when no
`\x7b` is found; otherwise the substring `result[start_idx:end_idx]` is
returned (the empty list when the depth counter never returns to zero). -/
def extractObj (s : List Char) : Option (List Char) :=
  match findBrace s with
  | none => none
  | some i =>
    let t := s.drop i
    match scanEnd t 0 0 with
    | none => some []
    | some n => some (t.take n)

/-! ### Balance bookkeeping for the scan -/

/-- Contribution of one character to the brace-depth counter. -/
def cdelta (c : Char) : Int :=
  if c = '{' then 1 else if c = '}' then -1 else 0

/-- Net brace balance of a character list. -/
def bal : List Char → Int
  | [] => 0
  | c :: cs => cdelta c + bal cs

theorem bal_append (a b : List Char) : bal (a ++ b) = bal a + bal b := by
  induction a with
  | nil => simp [bal]
  | cons c cs ih => simp [bal, ih]; ring

/-- Every prefix keeps the counter strictly positive when started at `count`. -/
def scanSafe (m : List Char) (count : Int) : Prop :=
  ∀ n : Nat, 0 < count + bal (m.take n)

theorem scanSafe_tail {c : Char} {m : List Char} {count : Int}
    (h : scanSafe (c :: m) count) : scanSafe m (count + cdelta c) := by
  intro n
  have := h (n + 1)
  simpa [List.take_succ_cons, bal, add_assoc] using this

theorem scanSafe_head {c : Char} {m : List Char} {count : Int}
    (h : scanSafe (c :: m) count) : 0 < count + cdelta c := by
  have := h 1
  simpa [List.take_succ_cons, bal] using this

/-- While the counter stays strictly positive, the scan passes over `m`
without stopping. -/
theorem scanEnd_skip (m : List Char) :
    ∀ (u : List Char) (count : Int) (i : Nat), scanSafe m count →
      scanEnd (m ++ u) count i = scanEnd u (count + bal m) (i + m.length) := by
  induction m with
  | nil => intro u count i _; simp [bal]
  | cons c cs ih =>
    intro u count i hsafe
    have htail : scanSafe cs (count + cdelta c) := scanSafe_tail hsafe
    have hhead : 0 < count + cdelta c := scanSafe_head hsafe
    by_cases hob : c = '{'
    · subst hob
      have : scanEnd (('{' :: cs) ++ u) count i = scanEnd (cs ++ u) (count + 1) (i + 1) := by
        simp [scanEnd]
      rw [this, ih u (count + 1) (i + 1) (by simpa [cdelta] using htail)]
      congr 1
      · simp [bal, cdelta]; ring
      · simp only [List.length_cons]; omega
    · by_cases hcb : c = '}'
      · subst hcb
        have hne : ¬(count - 1 = 0) := by
          have : 0 < count + cdelta '}' := hhead
          simp [cdelta] at this
          omega
        have : scanEnd (('}' :: cs) ++ u) count i = scanEnd (cs ++ u) (count - 1) (i + 1) := by
          simp [scanEnd, hne]
        rw [this, ih u (count - 1) (i + 1) (by simpa [cdelta] using htail)]
        congr 1
        · simp [bal, cdelta]; ring
        · simp only [List.length_cons]; omega
      · have : scanEnd ((c :: cs) ++ u) count i = scanEnd (cs ++ u) count (i + 1) := by
          simp [scanEnd, hob, hcb]
        rw [this, ih u count (i + 1) (by simpa [cdelta, hob, hcb] using htail)]
        congr 1
        · simp [bal, cdelta, hob, hcb]
        · simp only [List.length_cons]; omega

theorem take_len_append (a b : List α) : (a ++ b).take a.length = a := by
  simp

theorem findBrace_cons_open (rest : List Char) : findBrace ('{' :: rest) = some 0 := by
  simp [findBrace]

/-! ## A grammar of serialized JSON values

To state C1 ("for every text consisting of a valid JSON object followed by
trailing prose ...") we need a model of "valid JSON object": an abstract
syntax of JSON values together with a serializer.  A text is a valid JSON
object iff it is the serialization of some `JsonV.jobj`. -/

mutual

inductive JsonV : Type where
  | jnull : JsonV
  | jbool : Bool → JsonV
  | jnum : Int → JsonV
  | jstr : List Char → JsonV
  | jarr : JsonArr → JsonV
  | jobj : JsonKVs → JsonV

inductive JsonArr : Type where
  | anil : JsonArr
  | acons : JsonV → JsonArr → JsonArr

inductive JsonKVs : Type where
  | knil : JsonKVs
  | kcons : List Char → JsonV → JsonKVs → JsonKVs

end

/-- One decimal digit as a character. -/
def digitChar : Nat → Char
  | 0 => '0' | 1 => '1' | 2 => '2' | 3 => '3' | 4 => '4'
  | 5 => '5' | 6 => '6' | 7 => '7' | 8 => '8' | 9 => '9'
  | _ => '0'

/-- Decimal digits of a natural number. -/
def natDigits (n : Nat) : List Char :=
  if h : n < 10 then [digitChar n]
  else natDigits (n / 10) ++ [digitChar (n % 10)]
  decreasing_by exact Nat.div_lt_self (by omega) (by omega)

/-- Serialization of an integer. -/
def intChars (i : Int) : List Char :=
  if i < 0 then '-' :: natDigits i.natAbs else natDigits i.natAbs

/-- JSON string escaping of one character: quotes and backslashes are
escaped, everything else is emitted verbatim. -/
def escChar (c : Char) : List Char :=
  if c = '"' ∨ c = '\\' then ['\\', c] else [c]

/-- Body of a serialized JSON string literal. -/
def escAll (s : List Char) : List Char :=
  s.foldr (fun c acc => escChar c ++ acc) []

/-- Serialized JSON string literal. -/
def renderStr (s : List Char) : List Char :=
  '"' :: escAll s ++ ['"']

mutual

/-- Canonical serialization of a JSON value (no inter-token whitespace). -/
def render : JsonV → List Char
  | .jnull => ['n', 'u', 'l', 'l']
  | .jbool true => ['t', 'r', 'u', 'e']
  | .jbool false => ['f', 'a', 'l', 's', 'e']
  | .jnum i => intChars i
  | .jstr s => renderStr s
  | .jarr xs => '[' :: renderArr xs ++ [']']
  | .jobj kvs => '{' :: renderKVs kvs ++ ['}']

/-- Comma-separated serialization of array elements. -/
def renderArr : JsonArr → List Char
  | .anil => []
  | .acons v .anil => render v
  | .acons v tl => render v ++ ',' :: renderArr tl

/-- Comma-separated serialization of object members. -/
def renderKVs : JsonKVs → List Char
  | .knil => []
  | .kcons k v .knil => renderStr k ++ ':' :: render v
  | .kcons k v tl => renderStr k ++ ':' :: render v ++ ',' :: renderKVs tl

end

/-- A character list containing no brace characters. -/
def strNoBrace (s : List Char) : Bool :=
  s.all fun c => decide (c ≠ '{') && decide (c ≠ '}')

mutual

/-- No string literal (value or key) of the JSON value contains a brace
character.  This is the side condition under which the brace-depth scan of
the extractor is exact. -/
def braceFree : JsonV → Bool
  | .jnull => true
  | .jbool _ => true
  | .jnum _ => true
  | .jstr s => strNoBrace s
  | .jarr xs => braceFreeArr xs
  | .jobj kvs => braceFreeKVs kvs

def braceFreeArr : JsonArr → Bool
  | .anil => true
  | .acons v tl => braceFree v && braceFreeArr tl

def braceFreeKVs : JsonKVs → Bool
  | .knil => true
  | .kcons k v tl => strNoBrace k && braceFree v && braceFreeKVs tl

end

/-! ### Brace balance of rendered JSON -/

/-- All partial brace balances are nonnegative. -/
def prefOK (s : List Char) : Prop := ∀ n : Nat, 0 ≤ bal (s.take n)

/-- Balanced: total balance zero, no prefix dips below zero. -/
def balanced (s : List Char) : Prop := bal s = 0 ∧ prefOK s

/-- No character of the list moves the brace counter. -/
def nobrace (s : List Char) : Prop := ∀ c ∈ s, cdelta c = 0

theorem bal_eq_zero_of_nobrace {s : List Char} (h : nobrace s) : bal s = 0 := by
  induction s with
  | nil => rfl
  | cons c cs ih =>
    have hc : cdelta c = 0 := h c (by simp)
    have hcs : nobrace cs := fun d hd => h d (by simp [hd])
    simp [bal, hc, ih hcs]

theorem nobrace_balanced {s : List Char} (h : nobrace s) : balanced s := by
  refine ⟨bal_eq_zero_of_nobrace h, fun n => ?_⟩
  have : nobrace (s.take n) := fun c hc => h c (List.take_subset n s hc)
  simp [bal_eq_zero_of_nobrace this]

theorem balanced_append {a b : List Char} (ha : balanced a) (hb : balanced b) :
    balanced (a ++ b) := by
  refine ⟨by simp [bal_append, ha.1, hb.1], fun n => ?_⟩
  rw [List.take_append_eq_append_take, bal_append]
  have h1 := ha.2 n
  have h2 := hb.2 (n - a.length)
  omega

theorem balanced_braces {m : List Char} (h : balanced m) :
    balanced ('{' :: m ++ ['}']) := by
  constructor
  · show bal ('{' :: (m ++ ['}'])) = 0
    simp [bal, cdelta, bal_append, h.1]
  · intro n
    cases n with
    | zero => simp [bal]
    | succ k =>
      show 0 ≤ bal ('{' :: ((m ++ ['}']).take k))
      have hsplit : bal ((m ++ ['}']).take k) =
          bal (m.take k) + bal (['}'].take (k - m.length)) := by
        rw [List.take_append_eq_append_take, bal_append]
      have h3 : 0 ≤ bal (m.take k) := h.2 k
      have h4 : -1 ≤ bal (['}'].take (k - m.length)) := by
        cases hk : k - m.length with
        | zero => simp [bal]
        | succ j => simp [bal, cdelta]
      have hgoal : bal ('{' :: ((m ++ ['}']).take k)) =
          cdelta '{' + bal ((m ++ ['}']).take k) := rfl
      rw [hgoal, hsplit, show cdelta '{' = 1 from by decide]
      omega

theorem digitChar_cdelta (k : Nat) : cdelta (digitChar k) = 0 := by
  unfold digitChar
  split <;> decide

theorem natDigits_nobrace (n : Nat) : nobrace (natDigits n) := by
  induction n using Nat.strong_induction_on with
  | _ n ih =>
    rw [natDigits]
    split
    · intro c hc
      simp only [List.mem_singleton] at hc
      simpa [hc] using digitChar_cdelta n
    · intro c hc
      rcases List.mem_append.mp hc with h1 | h2
      · exact ih (n / 10) (Nat.div_lt_self (by omega) (by omega)) c h1
      · simp only [List.mem_singleton] at h2
        simpa [h2] using digitChar_cdelta (n % 10)

theorem intChars_nobrace (i : Int) : nobrace (intChars i) := by
  unfold intChars
  split
  · intro c hc
    rcases List.mem_cons.mp hc with h1 | h2
    · simp [h1, cdelta]
    · exact natDigits_nobrace _ c h2
  · exact natDigits_nobrace _

theorem escAll_nobrace {s : List Char} (h : strNoBrace s = true) :
    nobrace (escAll s) := by
  induction s with
  | nil => intro c hc; simp [escAll] at hc
  | cons a as ih =>
    have hsplit : escAll (a :: as) = escChar a ++ escAll as := rfl
    simp only [strNoBrace, List.all_cons, Bool.and_eq_true, decide_eq_true_eq] at h
    intro c hc
    rw [hsplit] at hc
    rcases List.mem_append.mp hc with h1 | h2
    · unfold escChar at h1
      split at h1
      · rcases List.mem_cons.mp h1 with rfl | h3
        · decide
        · simp only [List.mem_singleton] at h3
          subst h3
          simp [cdelta, h.1.1, h.1.2]
      · simp only [List.mem_singleton] at h1
        subst h1
        simp [cdelta, h.1.1, h.1.2]
    · exact ih h.2 c h2

theorem nobrace_of_all {s : List Char}
    (h : s.all (fun c => decide (cdelta c = 0)) = true) : nobrace s := by
  intro c hc
  simpa using List.all_eq_true.mp h c hc

theorem renderStr_nobrace {s : List Char} (h : strNoBrace s = true) :
    nobrace (renderStr s) := by
  intro c hc
  unfold renderStr at hc
  rcases List.mem_cons.mp hc with rfl | h1
  · decide
  · rcases List.mem_append.mp h1 with h2 | h3
    · exact escAll_nobrace h c h2
    · simp only [List.mem_singleton] at h3
      subst h3; decide

mutual

theorem render_balanced : ∀ v : JsonV, braceFree v = true → balanced (render v)
  | .jnull, _ => nobrace_balanced (nobrace_of_all (by decide))
  | .jbool true, _ => nobrace_balanced (nobrace_of_all (by decide))
  | .jbool false, _ => nobrace_balanced (nobrace_of_all (by decide))
  | .jnum i, _ => nobrace_balanced (intChars_nobrace i)
  | .jstr s, h => nobrace_balanced (renderStr_nobrace (by simpa [braceFree] using h))
  | .jarr xs, h => by
    have hx : braceFreeArr xs = true := by simpa [braceFree] using h
    have hm := renderArr_balanced xs hx
    show balanced ('[' :: renderArr xs ++ [']'])
    have : ('[' : Char) :: renderArr xs ++ [']'] =
        ['['] ++ renderArr xs ++ [']'] := by simp
    rw [this]
    exact balanced_append (balanced_append (nobrace_balanced (nobrace_of_all (by decide))) hm)
      (nobrace_balanced (nobrace_of_all (by decide)))
  | .jobj kvs, h => by
    have hk : braceFreeKVs kvs = true := by simpa [braceFree] using h
    exact balanced_braces (renderKVs_balanced kvs hk)

theorem renderArr_balanced : ∀ xs : JsonArr, braceFreeArr xs = true →
    balanced (renderArr xs)
  | .anil, _ => nobrace_balanced (by intro c hc; simp [renderArr] at hc)
  | .acons v .anil, h => by
    have hv : braceFree v = true := by
      simpa [braceFreeArr] using h
    simpa [renderArr] using render_balanced v hv
  | .acons v (.acons w tl), h => by
    simp only [braceFreeArr, Bool.and_eq_true] at h
    have h1 := render_balanced v h.1
    have h2 := renderArr_balanced (.acons w tl) (by
      simp only [braceFreeArr, Bool.and_eq_true]
      exact h.2)
    show balanced (render v ++ ',' :: renderArr (.acons w tl))
    have : render v ++ ',' :: renderArr (.acons w tl) =
        render v ++ [','] ++ renderArr (.acons w tl) := by simp
    rw [this]
    exact balanced_append (balanced_append h1 (nobrace_balanced (nobrace_of_all (by decide)))) h2

theorem renderKVs_balanced : ∀ kvs : JsonKVs, braceFreeKVs kvs = true →
    balanced (renderKVs kvs)
  | .knil, _ => nobrace_balanced (by intro c hc; simp [renderKVs] at hc)
  | .kcons k v .knil, h => by
    simp only [braceFreeKVs, Bool.and_eq_true] at h
    have h1 := nobrace_balanced (renderStr_nobrace h.1.1)
    have h2 := render_balanced v h.1.2
    show balanced (renderStr k ++ ':' :: render v)
    have : renderStr k ++ ':' :: render v =
        renderStr k ++ [':'] ++ render v := by simp
    rw [this]
    exact balanced_append (balanced_append h1 (nobrace_balanced (nobrace_of_all (by decide)))) h2
  | .kcons k v (.kcons k2 v2 tl), h => by
    simp only [braceFreeKVs, Bool.and_eq_true] at h
    have h1 := nobrace_balanced (renderStr_nobrace h.1.1)
    have h2 := render_balanced v h.1.2
    have h3 := renderKVs_balanced (.kcons k2 v2 tl) (by
      simp only [braceFreeKVs, Bool.and_eq_true]
      exact h.2)
    show balanced (renderStr k ++ ':' :: render v ++ ',' :: renderKVs (.kcons k2 v2 tl))
    have : renderStr k ++ ':' :: render v ++ ',' :: renderKVs (.kcons k2 v2 tl) =
        renderStr k ++ [':'] ++ render v ++ [','] ++ renderKVs (.kcons k2 v2 tl) := by simp
    rw [this]
    exact balanced_append (balanced_append (balanced_append
      (balanced_append h1 (nobrace_balanced (nobrace_of_all (by decide)))) h2)
      (nobrace_balanced (nobrace_of_all (by decide)))) h3

end

/-! ### Exactness of the extractor on balanced objects -/

theorem scanEnd_object (m u : List Char) (hm : balanced m) :
    scanEnd (('{' :: m ++ ['}']) ++ u) 0 0 = some (m.length + 2) := by
  have hassoc : (('{' :: m ++ ['}']) ++ u) = '{' :: (m ++ ('}' :: u)) := by simp
  rw [hassoc]
  have h1 : scanEnd ('{' :: (m ++ ('}' :: u))) 0 0 = scanEnd (m ++ ('}' :: u)) 1 1 := by
    simp [scanEnd]
  have hsafe : scanSafe m 1 := fun n => by have := hm.2 n; omega
  rw [h1, scanEnd_skip m ('}' :: u) 1 1 hsafe, hm.1]
  have h2 : scanEnd ('}' :: u) (1 + 0) (1 + m.length) = some (1 + m.length + 1) := by
    simp [scanEnd]
  rw [h2]
  congr 1
  omega

theorem extractObj_balanced_prefix (m u : List Char) (hm : balanced m) :
    extractObj (('{' :: m ++ ['}']) ++ u) = some ('{' :: m ++ ['}']) := by
  have hfind : findBrace (('{' :: m ++ ['}']) ++ u) = some 0 := by
    have hx : (('{' :: m ++ ['}']) ++ u) = '{' :: ((m ++ ['}']) ++ u) := by simp
    rw [hx]
    exact findBrace_cons_open _
  have hscan := scanEnd_object m u hm
  have hlen : ('{' :: m ++ ['}']).length = m.length + 2 := by simp
  simp only [extractObj, hfind, List.drop_zero, hscan]
  rw [← hlen, take_len_append]

/-- Claim C1 (counterexample): the extraction step is not exact on every
valid JSON object.  The object `\x7b"a":"\x7d"\x7d` (a one-member object whose
string value is a closing brace) followed by trailing prose ` x` is cut short
at the brace inside the string literal, so the returned substring differs
from the object substring. -/
theorem extract_object_cex :
    render (JsonV.jobj (.kcons ['a'] (.jstr ['}']) .knil)) =
      ['{', '"', 'a', '"', ':', '"', '}', '"', '}'] ∧
    extractObj (render (JsonV.jobj (.kcons ['a'] (.jstr ['}']) .knil)) ++ [' ', 'x']) =
      some ['{', '"', 'a', '"', ':', '"', '}'] ∧
    some ['{', '"', 'a', '"', ':', '"', '}'] ≠
      some (render (JsonV.jobj (.kcons ['a'] (.jstr ['}']) .knil))) := by
  refine ⟨by decide, by decide, by decide⟩

/-- Claim C1 (amended): for every input text consisting of a valid JSON
object none of whose string literals (keys or values) contains a brace
character, followed by arbitrary trailing prose, the object-extraction step
(first `\x7b`, then brace-depth scan) returns exactly the object substring,
independent of what follows it. -/
theorem extract_object_exact (kvs : JsonKVs) (u : List Char)
    (h : braceFree (JsonV.jobj kvs) = true) :
    extractObj (render (JsonV.jobj kvs) ++ u) = some (render (JsonV.jobj kvs)) := by
  have hk : braceFreeKVs kvs = true := by simpa [braceFree] using h
  have hm := renderKVs_balanced kvs hk
  have hr : render (JsonV.jobj kvs) = '{' :: renderKVs kvs ++ ['}'] := rfl
  rw [hr]
  exact extractObj_balanced_prefix _ u hm

/-- Witness for C1 (amended) at the concrete object `\x7b"d":"1"\x7d` followed
by ` ok`. -/
theorem extract_object_exact_witness :
    braceFree (JsonV.jobj (.kcons ['d'] (.jstr ['1']) .knil)) = true ∧
    extractObj (render (JsonV.jobj (.kcons ['d'] (.jstr ['1']) .knil)) ++ [' ', 'o', 'k']) =
      some (render (JsonV.jobj (.kcons ['d'] (.jstr ['1']) .knil))) :=
  ⟨by decide, extract_object_exact (.kcons ['d'] (.jstr ['1']) .knil) [' ', 'o', 'k'] (by decide)⟩

/-! ## EscapeRepairer

Embedding of `_fix_json_escapes` (`generate_flashcards.py`, lines 351-390):
left-to-right scan; a backslash followed by a valid escape character is
copied through (for `u`, the next 4 characters are additionally copied
verbatim when at least 4 remain); a backslash followed by anything else is
doubled; a trailing lone backslash is copied unchanged. -/

/-- The `valid_escapes` set of the source. -/
def validEsc (c : Char) : Bool :=
  c = '"' || c = '\\' || c = '/' || c = 'b' || c = 'f' ||
  c = 'n' || c = 'r' || c = 't' || c = 'u'

def fix_json_escapes : List Char → List Char
  | [] => []
  | c :: rest =>
    if c = '\\' then
      match rest with
      | [] => [c]
      | d :: rest2 =>
        if validEsc d then
          if d = 'u' ∧ 4 ≤ rest2.length then
            '\\' :: d :: (rest2.take 4 ++ fix_json_escapes (rest2.drop 4))
          else '\\' :: d :: fix_json_escapes rest2
        else if d = '\\' then '\\' :: '\\' :: fix_json_escapes rest2
        else '\\' :: '\\' :: d :: fix_json_escapes rest2
    else c :: fix_json_escapes rest
  termination_by s => s.length

theorem drop_len_append (a b : List α) : (a ++ b).drop a.length = b := by
  simp

theorem fix_step_plain {c : Char} (r : List Char) (h : c ≠ '\\') :
    fix_json_escapes (c :: r) = c :: fix_json_escapes r := by
  rw [fix_json_escapes.eq_def]
  simp [h]

theorem fix_step_lone : fix_json_escapes ['\\'] = ['\\'] := by
  rw [fix_json_escapes.eq_def]
  simp

theorem fix_step_valid {d : Char} (r : List Char) (h1 : validEsc d = true)
    (h2 : d ≠ 'u') :
    fix_json_escapes ('\\' :: d :: r) = '\\' :: d :: fix_json_escapes r := by
  rw [fix_json_escapes.eq_def]
  simp [h1, h2]

theorem fix_step_u_long (r : List Char) (h : 4 ≤ r.length) :
    fix_json_escapes ('\\' :: 'u' :: r) =
      '\\' :: 'u' :: (r.take 4 ++ fix_json_escapes (r.drop 4)) := by
  rw [fix_json_escapes.eq_def]
  simp [validEsc, h]

theorem fix_step_u_short (r : List Char) (h : r.length < 4) :
    fix_json_escapes ('\\' :: 'u' :: r) = '\\' :: 'u' :: fix_json_escapes r := by
  rw [fix_json_escapes.eq_def]
  simp [validEsc]
  omega

theorem fix_step_invalid {d : Char} (r : List Char) (h : validEsc d = false) :
    fix_json_escapes ('\\' :: d :: r) = '\\' :: '\\' :: d :: fix_json_escapes r := by
  have hd : d ≠ '\\' := by
    intro he
    rw [he] at h
    simp [validEsc] at h
  rw [fix_json_escapes.eq_def]
  simp [h, hd]

theorem fix_json_escapes_length :
    ∀ s : List Char, 2 * (fix_json_escapes s).length ≤ 3 * s.length
  | [] => by simp [fix_json_escapes]
  | c :: rest => by
    by_cases hc : c = '\\'
    · subst hc
      match rest with
      | [] => rw [fix_step_lone]; simp
      | d :: rest2 =>
        by_cases hv : validEsc d = true
        · by_cases hu : d = 'u'
          · subst hu
            by_cases hlen : 4 ≤ rest2.length
            · rw [fix_step_u_long rest2 hlen]
              have ih := fix_json_escapes_length (rest2.drop 4)
              simp only [List.length_cons, List.length_append, List.length_take,
                List.length_drop] at *
              omega
            · rw [fix_step_u_short rest2 (by omega)]
              have ih := fix_json_escapes_length rest2
              simp only [List.length_cons] at *
              omega
          · rw [fix_step_valid rest2 hv hu]
            have ih := fix_json_escapes_length rest2
            simp only [List.length_cons] at *
            omega
        · rw [fix_step_invalid rest2 (by simpa using hv)]
          have ih := fix_json_escapes_length rest2
          simp only [List.length_cons] at *
          omega
    · rw [fix_step_plain rest hc]
      have ih := fix_json_escapes_length rest
      simp only [List.length_cons] at *
      omega
  termination_by s => s.length

/-- Claim C5: the escape repairer is idempotent. -/
theorem fix_json_escapes_idem :
    ∀ s : List Char, fix_json_escapes (fix_json_escapes s) = fix_json_escapes s
  | [] => by simp [fix_json_escapes]
  | c :: rest => by
    by_cases hc : c = '\\'
    · subst hc
      match rest with
      | [] => rw [fix_step_lone, fix_step_lone]
      | d :: rest2 =>
        by_cases hv : validEsc d = true
        · by_cases hu : d = 'u'
          · subst hu
            by_cases hlen : 4 ≤ rest2.length
            · rw [fix_step_u_long rest2 hlen]
              have htake : (rest2.take 4).length = 4 := by
                simp [List.length_take]; omega
              have hlong : 4 ≤ (rest2.take 4 ++ fix_json_escapes (rest2.drop 4)).length := by
                simp [htake]
              rw [fix_step_u_long _ hlong]
              have e1 : (rest2.take 4 ++ fix_json_escapes (rest2.drop 4)).take 4 =
                  rest2.take 4 := by
                have hx := take_len_append (rest2.take 4) (fix_json_escapes (rest2.drop 4))
                rwa [htake] at hx
              have e2 : (rest2.take 4 ++ fix_json_escapes (rest2.drop 4)).drop 4 =
                  fix_json_escapes (rest2.drop 4) := by
                have hx := drop_len_append (rest2.take 4) (fix_json_escapes (rest2.drop 4))
                rwa [htake] at hx
              rw [e1, e2, fix_json_escapes_idem (rest2.drop 4)]
            · rw [fix_step_u_short rest2 (by omega)]
              have hF : (fix_json_escapes rest2).length ≤ 4 := by
                have := fix_json_escapes_length rest2
                omega
              by_cases hF4 : (fix_json_escapes rest2).length = 4
              · rw [fix_step_u_long _ (by omega)]
                rw [List.take_of_length_le (by omega), List.drop_of_length_le (by omega)]
                simp [fix_json_escapes]
              · rw [fix_step_u_short _ (by omega), fix_json_escapes_idem rest2]
          · rw [fix_step_valid rest2 hv hu, fix_step_valid _ hv hu,
              fix_json_escapes_idem rest2]
        · have hv2 : validEsc d = false := by simpa using hv
          have hd : d ≠ '\\' := by
            intro he
            rw [he] at hv2
            simp [validEsc] at hv2
          rw [fix_step_invalid rest2 hv2,
            fix_step_valid (d :: fix_json_escapes rest2) (by decide) (by decide),
            fix_step_plain (fix_json_escapes rest2) hd,
            fix_json_escapes_idem rest2]
    · rw [fix_step_plain rest hc, fix_step_plain _ hc, fix_json_escapes_idem rest]
  termination_by s => s.length

/-! ### Output well-formedness of the repairer (C6) -/

/-- Spec-side checker: every backslash begins one of the valid escapes, with
`\u` consuming the following 4 characters verbatim (their hex validity
excluded, as the source copies them without validation). -/
def valid_escapes_only : List Char → Bool
  | [] => true
  | c :: rest =>
    if c = '\\' then
      match rest with
      | [] => false
      | d :: rest2 =>
        if d = 'u' then
          if 4 ≤ rest2.length then valid_escapes_only (rest2.drop 4) else false
        else if validEsc d then valid_escapes_only rest2
        else false
    else valid_escapes_only rest
  termination_by s => s.length

/-- Input-side condition: scanning the input the way the repairer does, the
input does not end in a truncated sequence (a lone final backslash, or `\u`
with fewer than 4 characters remaining). -/
def no_truncated_tail : List Char → Bool
  | [] => true
  | c :: rest =>
    if c = '\\' then
      match rest with
      | [] => false
      | d :: rest2 =>
        if d = 'u' then
          if 4 ≤ rest2.length then no_truncated_tail (rest2.drop 4) else false
        else no_truncated_tail rest2
    else no_truncated_tail rest
  termination_by s => s.length

theorem veo_nil : valid_escapes_only [] = true := by
  rw [valid_escapes_only.eq_def]

theorem veo_plain {c : Char} (r : List Char) (h : c ≠ '\\') :
    valid_escapes_only (c :: r) = valid_escapes_only r := by
  rw [valid_escapes_only.eq_def]
  simp [h]

theorem veo_valid {d : Char} (r : List Char) (h1 : validEsc d = true) (h2 : d ≠ 'u') :
    valid_escapes_only ('\\' :: d :: r) = valid_escapes_only r := by
  rw [valid_escapes_only.eq_def]
  simp [h1, h2]

theorem veo_u_long (r : List Char) (h : 4 ≤ r.length) :
    valid_escapes_only ('\\' :: 'u' :: r) = valid_escapes_only (r.drop 4) := by
  rw [valid_escapes_only.eq_def]
  simp [h]

theorem ntt_nil : no_truncated_tail [] = true := by
  rw [no_truncated_tail.eq_def]

theorem ntt_plain {c : Char} (r : List Char) (h : c ≠ '\\') :
    no_truncated_tail (c :: r) = no_truncated_tail r := by
  rw [no_truncated_tail.eq_def]
  simp [h]

theorem ntt_lone : no_truncated_tail ['\\'] = false := by
  rw [no_truncated_tail.eq_def]
  simp

theorem ntt_esc {d : Char} (r : List Char) (h : d ≠ 'u') :
    no_truncated_tail ('\\' :: d :: r) = no_truncated_tail r := by
  rw [no_truncated_tail.eq_def]
  simp [h]

theorem ntt_u_long (r : List Char) (h : 4 ≤ r.length) :
    no_truncated_tail ('\\' :: 'u' :: r) = no_truncated_tail (r.drop 4) := by
  rw [no_truncated_tail.eq_def]
  simp [h]

theorem ntt_u_short (r : List Char) (h : r.length < 4) :
    no_truncated_tail ('\\' :: 'u' :: r) = false := by
  rw [no_truncated_tail.eq_def]
  simp
  omega

/-- Claim C6 (counterexample): the repairer's output is not always composed
of valid escapes only: a lone trailing backslash is copied through unchanged
(the source guards `i + 1 < len`), so the output of repairing `"\\"` ends in
a backslash that begins no escape sequence. -/
theorem fix_escapes_output_cex :
    fix_json_escapes ['\\'] = ['\\'] ∧ valid_escapes_only ['\\'] = false := by
  constructor
  · exact fix_step_lone
  · rw [valid_escapes_only.eq_def]
    simp

theorem fix_veo_aux : ∀ (n : Nat) (s : List Char), s.length ≤ n →
    no_truncated_tail s = true → valid_escapes_only (fix_json_escapes s) = true
  | _, [], _, _ => by simp [fix_json_escapes, veo_nil]
  | 0, c :: rest, hlen, _ => by simp at hlen
  | n + 1, c :: rest, hlen, hs => by
    by_cases hc : c = '\\'
    · subst hc
      match rest with
      | [] => rw [ntt_lone] at hs; exact absurd hs (by simp)
      | d :: rest2 =>
        by_cases hu : d = 'u'
        · subst hu
          by_cases hl4 : 4 ≤ rest2.length
          · rw [ntt_u_long rest2 hl4] at hs
            rw [fix_step_u_long rest2 hl4]
            have htake : (rest2.take 4).length = 4 := by
              simp [List.length_take]; omega
            have hlong : 4 ≤ (rest2.take 4 ++ fix_json_escapes (rest2.drop 4)).length := by
              simp [htake]
            rw [veo_u_long _ hlong]
            have e2 : (rest2.take 4 ++ fix_json_escapes (rest2.drop 4)).drop 4 =
                fix_json_escapes (rest2.drop 4) := by
              have hx := drop_len_append (rest2.take 4) (fix_json_escapes (rest2.drop 4))
              rwa [htake] at hx
            rw [e2]
            refine fix_veo_aux n (rest2.drop 4) ?_ hs
            simp only [List.length_cons, List.length_drop] at *
            omega
          · rw [ntt_u_short rest2 (by omega)] at hs
            exact absurd hs (by simp)
        · rw [ntt_esc rest2 hu] at hs
          have hlen2 : rest2.length ≤ n := by
            simp only [List.length_cons] at hlen
            omega
          by_cases hv : validEsc d = true
          · rw [fix_step_valid rest2 hv hu, veo_valid _ hv hu]
            exact fix_veo_aux n rest2 hlen2 hs
          · have hv2 : validEsc d = false := by simpa using hv
            have hd : d ≠ '\\' := by
              intro he
              rw [he] at hv2
              simp [validEsc] at hv2
            rw [fix_step_invalid rest2 hv2,
              veo_valid (d :: fix_json_escapes rest2) (by decide) (by decide),
              veo_plain _ hd]
            exact fix_veo_aux n rest2 hlen2 hs
    · rw [ntt_plain rest hc] at hs
      rw [fix_step_plain rest hc, veo_plain _ hc]
      refine fix_veo_aux n rest ?_ hs
      simp only [List.length_cons] at hlen
      omega

/-- Claim C6 (amended): for every input that does not end in a truncated
escape sequence (a lone final backslash, or `\u` with fewer than 4 characters
following), every backslash in the repairer's output begins one of the valid
escapes, with `\u` followed by exactly 4 verbatim characters (hex validity of
those 4 characters excluded). -/
theorem fix_json_escapes_valid_output (s : List Char)
    (hs : no_truncated_tail s = true) :
    valid_escapes_only (fix_json_escapes s) = true :=
  fix_veo_aux s.length s le_rfl hs

/-- Witness for C6 (amended) at the concrete input `\e` (an invalid escape,
repaired to `\\e`). -/
theorem fix_json_escapes_valid_output_witness :
    no_truncated_tail ['\\', 'e'] = true ∧
    valid_escapes_only (fix_json_escapes ['\\', 'e']) = true := by
  have hntt : no_truncated_tail ['\\', 'e'] = true := by
    rw [ntt_esc [] (by decide), ntt_nil]
  exact ⟨hntt, fix_json_escapes_valid_output ['\\', 'e'] hntt⟩

/-! ## Math-delimiter transform

Embedding of `_fix_math_in_text` (`generate_flashcards.py`, lines 308-331):
three successive regex substitutions over the text.
1. every occurrence of four consecutive backslashes becomes two;
2. `$$...$$` (non-greedy, at least one content character, dot-matches-all)
   becomes `\[...\]`;
3. `$...$` (single dollars guarded by lookarounds, non-greedy content without
   newlines) becomes `\(...\)`.
All three scans are left-to-right and non-overlapping, mirroring `re.sub`. -/

/-- First substitution: collapse each run of four backslashes to two. -/
def collapse4 : List Char → List Char
  | [] => []
  | c :: rest =>
    if c = '\\' ∧ rest.take 3 = ['\\', '\\', '\\'] then
      '\\' :: '\\' :: collapse4 (rest.drop 3)
    else c :: collapse4 rest
  termination_by s => s.length

/-- Split at the first occurrence of `$$`: returns the part before and the
part after the two dollars. -/
def findDD : List Char → Option (List Char × List Char)
  | [] => none
  | c :: rest =>
    if c = '$' ∧ rest.head? = some '$' then some ([], rest.tail)
    else (findDD rest).map fun p => (c :: p.1, p.2)

theorem findDD_len (t : List Char) : ∀ pre post, findDD t = some (pre, post) →
    post.length < t.length := by
  induction t with
  | nil => intro pre post h; simp [findDD] at h
  | cons c rest ih =>
    intro pre post h
    rw [findDD] at h
    split at h
    · rename_i hcond
      simp only [Option.some.injEq, Prod.mk.injEq] at h
      obtain ⟨-, h2⟩ := h
      subst h2
      cases rest with
      | nil => simp at hcond
      | cons d t2 => simp [List.length_cons]; omega
    · cases hfd : findDD rest with
      | none => rw [hfd] at h; simp at h
      | some p =>
        rw [hfd] at h
        simp at h
        obtain ⟨-, h2⟩ := h
        subst h2
        have := ih p.1 p.2 (by rw [hfd])
        simp only [List.length_cons]
        omega

/-- Second substitution (display math): scan for `$$`, take the shortest
nonempty content up to the next `$$`, and rewrite to `\[content\]`. -/
def dispSub : List Char → List Char
  | '$' :: '$' :: e :: t =>
    match hf : findDD t with
    | some (pre, post) => '\\' :: '[' :: e :: (pre ++ '\\' :: ']' :: dispSub post)
    | none => '$' :: dispSub ('$' :: e :: t)
  | c :: rest => c :: dispSub rest
  | [] => []
  termination_by s => s.length
  decreasing_by
  · have := findDD_len t pre post hf
    simp only [List.length_cons]
    omega
  · simp only [List.length_cons]
    omega
  · simp only [List.length_cons]
    omega

/-- Scan for the closing `$` of an inline-math span: the first `$` whose
neighbours are not `$`; fails at a newline (the content class `.` of the
third regex does not match newlines) or at end of input. -/
def closeScan : Char → List Char → Option (List Char × List Char)
  | _, [] => none
  | prev, c :: rest =>
    if c = '$' ∧ prev ≠ '$' ∧ rest.head? ≠ some '$' then some ([], rest)
    else if c = '\n' then none
    else (closeScan c rest).map fun p => (c :: p.1, p.2)

theorem closeScan_len : ∀ (prev : Char) (t : List Char) (pre post : List Char),
    closeScan prev t = some (pre, post) → post.length < t.length := by
  intro prev t
  induction t generalizing prev with
  | nil => intro pre post h; simp [closeScan] at h
  | cons c rest ih =>
    intro pre post h
    rw [closeScan] at h
    split at h
    · simp only [Option.some.injEq, Prod.mk.injEq] at h
      obtain ⟨-, h2⟩ := h
      subst h2
      simp [List.length_cons]
    · split at h
      · simp at h
      · cases hcs : closeScan c rest with
        | none => rw [hcs] at h; simp at h
        | some p =>
          rw [hcs] at h
          simp at h
          obtain ⟨-, h2⟩ := h
          subst h2
          have := ih c p.1 p.2 (by rw [hcs])
          simp only [List.length_cons]
          omega

/-- Third substitution (inline math): a `$` not adjacent to another `$`
opens a span; the shortest newline-free content up to a closing `$` not
adjacent to another `$` is rewritten to `\(content\)`.  `prev` is the
character before the current position (`none` at the start of the text). -/
def inlSub : Option Char → List Char → List Char
  | _, [] => []
  | prev, c :: rest =>
    if c = '$' ∧ prev ≠ some '$' ∧ rest.head? ≠ some '$' then
      match hc : closeScan '$' rest with
      | some (content, post) =>
        '\\' :: '(' :: (content ++ '\\' :: ')' :: inlSub (some '$') post)
      | none => c :: inlSub (some c) rest
    else c :: inlSub (some c) rest
  termination_by _ s => s.length
  decreasing_by
  · have := closeScan_len '$' rest content post hc
    simp only [List.length_cons]
    omega
  · simp only [List.length_cons]
    omega
  · simp only [List.length_cons]
    omega

theorem collapse4_id {s : List Char} (h : ∀ c ∈ s, c ≠ '\\') :
    collapse4 s = s := by
  induction s with
  | nil => simp [collapse4]
  | cons c rest ih =>
    rw [collapse4]
    have hc : c ≠ '\\' := h c (by simp)
    rw [if_neg (by simp [hc])]
    rw [ih fun d hd => h d (by simp [hd])]

theorem dispSub_plain {c : Char} (rest : List Char) (h : c ≠ '$') :
    dispSub (c :: rest) = c :: dispSub rest := by
  rw [dispSub.eq_def]
  split
  · rename_i e t heq
    rw [List.cons.injEq] at heq
    exact absurd heq.1 h
  · rename_i c2 rest2 _ heq
    rw [List.cons.injEq] at heq
    rw [heq.1, heq.2]
  · rename_i heq
    simp at heq

theorem dispSub_id {s : List Char} (h : ∀ c ∈ s, c ≠ '$') : dispSub s = s := by
  induction s with
  | nil => simp [dispSub]
  | cons c rest ih =>
    rw [dispSub_plain rest (h c (by simp))]
    rw [ih fun d hd => h d (by simp [hd])]

theorem inlSub_plain {c : Char} (prev : Option Char) (rest : List Char)
    (h : c ≠ '$') : inlSub prev (c :: rest) = c :: inlSub (some c) rest := by
  rw [inlSub.eq_def]
  simp [h]

theorem inlSub_id {s : List Char} (h : ∀ c ∈ s, c ≠ '$') (prev : Option Char) :
    inlSub prev s = s := by
  induction s generalizing prev with
  | nil => simp [inlSub]
  | cons c rest ih =>
    rw [inlSub_plain prev rest (h c (by simp))]
    rw [ih (fun d hd => h d (by simp [hd])) (some c)]

/-! ### Adjacency predicates for the idempotence analysis of the math
transform.  `noPair '$'` rules out adjacent dollar signs (which make the
display-math rewrite fire a second time on its own output), `noTriple`
rules out three consecutive backslashes (which let an inserted `\(`/`\)`
marker complete a four-backslash run for the collapsing step). -/

/-- The whitespace characters stripped by Python `str.strip()`. -/
def pyWs (c : Char) : Bool :=
  c == ' ' || c == '\t' || c == '\n' || c == '\r' || c == '\x0b' || c == '\x0c'

/-- Python `str.strip()`. -/
def pyStrip (s : List Char) : List Char :=
  ((s.dropWhile pyWs).reverse.dropWhile pyWs).reverse

/-- A backtick character (written via its code point). -/
def btick : Char := Char.ofNat 96

/-- Python `str.split("\n")`. -/
def splitLines : List Char → List (List Char)
  | [] => [[]]
  | c :: rest =>
    if c = '\n' then [] :: splitLines rest
    else
      match splitLines rest with
      | l :: ls => (c :: l) :: ls
      | [] => [[c]]

/-- Python `"\n".join(lines)`. -/
def joinLines : List (List Char) → List Char
  | [] => []
  | [l] => l
  | l :: ls => l ++ '\n' :: joinLines ls

/-! ## RetryingCaller, content-rejection axis: call_gemini

Embedding of the retry skeleton of `call_gemini` (`lib/common.py`, lines
179-225).  The remote service is modelled as a script mapping the attempt
index to the scripted response; the function returns the list of
temperatures attempted, in order, together with the outcome. -/

/-- The observable part of a remote generation response: the text body (or
`none`), and whether the first candidate's finish reason contains
RECITATION. -/
structure GResponse where
  text : Option (List Char)
  recitationFinish : Bool

/-- Embedding of `_is_recitation_error`. -/
def is_recitation_error (r : GResponse) : Bool :=
  match r.text with
  | some _ => false
  | none => r.recitationFinish

/-- Post-processing of a successful response: strip, then remove a leading
markdown fence line and a trailing fence line. -/
def stripTicksBlock (t : List Char) : List Char :=
  if t.take 3 = [btick, btick, btick] then
    let lines := (splitLines t).drop 1
    let lines2 :=
      match lines.getLast? with
      | some l => if pyStrip l = [btick, btick, btick] then lines.dropLast else lines
      | none => lines
    joinLines lines2
  else t

/-- The error message raised when the final response has no text body. -/
def geminiEmptyMsg : String :=
  "Gemini returned empty response - content may have been blocked or there was an API error"

/-- Retry skeleton of `call_gemini`: one attempt at the caller's
temperature; on a RECITATION rejection with temperature below 1.5, one
attempt at 1.5; if the current response is still a RECITATION rejection, one
attempt at 2.0; a final null text body raises. -/
def call_gemini (script : Nat → GResponse) (temperature : ℚ) :
    List ℚ × Except String (List Char) :=
  let resp0 := script 0
  let st1 : List ℚ × GResponse :=
    if is_recitation_error resp0 = true ∧ temperature < 3/2 then
      ([temperature, 3/2], script 1)
    else ([temperature], resp0)
  let st2 : List ℚ × GResponse :=
    if is_recitation_error st1.2 = true then (st1.1 ++ [2], script st1.1.length)
    else st1
  match st2.2.text with
  | none => (st2.1, Except.error geminiEmptyMsg)
  | some t => (st2.1, Except.ok (stripTicksBlock (pyStrip t)))

/-- Claim C2: if every response is a content rejection (null text body with a
RECITATION finish reason) and the initial temperature is below 1.5,
`call_gemini` makes exactly 3 attempts, at the initial temperature, then 1.5,
then 2.0 (strictly increasing, each escalation value once), and then
surfaces the content-rejection error; no fourth attempt occurs. -/
theorem call_gemini_recitation_exhausts (script : Nat → GResponse)
    (temperature : ℚ)
    (hrej : ∀ n, (script n).text = none ∧ (script n).recitationFinish = true)
    (ht : temperature < 3/2) :
    call_gemini script temperature =
      ([temperature, 3/2, 2], Except.error geminiEmptyMsg) ∧
    temperature < 3/2 ∧ (3/2 : ℚ) < 2 := by
  have hr : ∀ n, is_recitation_error (script n) = true := by
    intro n
    unfold is_recitation_error
    rw [(hrej n).1]
    exact (hrej n).2
  refine ⟨?_, ht, by norm_num⟩
  simp [call_gemini, hr 0, hr 1, ht, (hrej 2).1]

/-- Witness for C2: a script of constant rejections at initial temperature 1. -/
theorem call_gemini_recitation_exhausts_witness :
    call_gemini (fun _ => ⟨none, true⟩) 1 =
      ([1, 3/2, 2], Except.error geminiEmptyMsg) ∧
    (1 : ℚ) < 3/2 ∧ (3/2 : ℚ) < 2 :=
  call_gemini_recitation_exhausts (fun _ => ⟨none, true⟩) 1
    (fun _ => ⟨rfl, rfl⟩) (by norm_num)

/-- Claim C10: if `call_gemini` is invoked with an initial temperature of 1.5
or higher and every response is a content rejection, the 1.5 escalation step
is skipped, exactly two attempts occur (the caller's temperature, then 2.0),
and the content-rejection error is surfaced; the 2.0 step is attempted
regardless of the initial temperature. -/
theorem call_gemini_recitation_high_temp (script : Nat → GResponse)
    (temperature : ℚ)
    (hrej : ∀ n, (script n).text = none ∧ (script n).recitationFinish = true)
    (ht : 3/2 ≤ temperature) :
    call_gemini script temperature =
      ([temperature, 2], Except.error geminiEmptyMsg) := by
  have hr : ∀ n, is_recitation_error (script n) = true := by
    intro n
    unfold is_recitation_error
    rw [(hrej n).1]
    exact (hrej n).2
  simp [call_gemini, hr 0, (hrej 1).1, not_lt.mpr ht]

/-- Witness for C10 at initial temperature 2. -/
theorem call_gemini_recitation_high_temp_witness :
    call_gemini (fun _ => ⟨none, true⟩) 2 =
      ([2, 2], Except.error geminiEmptyMsg) :=
  call_gemini_recitation_high_temp (fun _ => ⟨none, true⟩) 2
    (fun _ => ⟨rfl, rfl⟩) (by norm_num)

/-! ## RetryingCaller, transport axis: anki_invoke

Embedding of `anki_invoke` (`generate_flashcards.py`, lines 30-90): up to
`max_retries` attempts; a `URLError` or a retryable Anki-Connect error
(INTERNAL/500) sleeps `(attempt + 1) * 2` seconds and retries while attempts
remain, then raises; malformed responses and non-retryable errors raise
immediately; a successful response returns its payload. -/

/-- Classification of one scripted Anki-Connect exchange, following the
branches of the source. -/
inductive AnkiResp (α : Type) where
  | urlError : AnkiResp α
  | badFormat : AnkiResp α
  | apiError (retryable : Bool) : AnkiResp α
  | ok (payload : α) : AnkiResp α

/-- The retry loop of `anki_invoke`: returns the backoff waits performed (in
seconds, in order) and the outcome. -/
def anki_attempts {α : Type} (script : Nat → AnkiResp α) (maxRetries attempt : Nat)
    (waits : List Nat) : List Nat × Except String α :=
  match script attempt with
  | .ok p => (waits, Except.ok p)
  | .badFormat => (waits, Except.error "Unexpected response format from Anki-Connect")
  | .apiError r =>
    if h : r = true ∧ attempt < maxRetries - 1 then
      anki_attempts script maxRetries (attempt + 1) (waits ++ [(attempt + 1) * 2])
    else (waits, Except.error "Anki-Connect error")
  | .urlError =>
    if h : attempt < maxRetries - 1 then
      anki_attempts script maxRetries (attempt + 1) (waits ++ [(attempt + 1) * 2])
    else
      (waits, Except.error "Cannot connect to Anki. Make sure Anki is running with Anki-Connect add-on installed (code: 2055492159)")
  termination_by maxRetries - attempt
  decreasing_by
  · omega
  · omega

/-- Embedding of `anki_invoke`: with a zero retry budget the loop body never
runs and the final fallback error is raised. -/
def anki_invoke {α : Type} (script : Nat → AnkiResp α) (maxRetries : Nat) :
    List Nat × Except String α :=
  if maxRetries = 0 then ([], Except.error "Failed after all retry attempts")
  else anki_attempts script maxRetries 0 []

/-- Claim C3: with the default budget of 3 attempts, a script of two
transient transport errors then a success performs exactly the backoff waits
2 and 4 seconds (base 2 times the attempt number, increasing) and returns
the success payload; a script of persistent transport errors performs the
same two waits and then surfaces a transport error, never a success
payload. -/
theorem anki_invoke_transport {α : Type} (p : α)
    (script allFail : Nat → AnkiResp α)
    (h0 : script 0 = .urlError) (h1 : script 1 = .urlError)
    (h2 : script 2 = .ok p)
    (hfail : ∀ n, allFail n = .urlError) :
    anki_invoke script 3 = ([2, 4], Except.ok p) ∧
    anki_invoke allFail 3 =
      ([2, 4], Except.error "Cannot connect to Anki. Make sure Anki is running with Anki-Connect add-on installed (code: 2055492159)") := by
  constructor
  · unfold anki_invoke
    rw [if_neg (by omega)]
    rw [anki_attempts, h0]
    rw [dif_pos (by omega)]
    rw [anki_attempts, h1]
    rw [dif_pos (by omega)]
    rw [anki_attempts, h2]
    rfl
  · unfold anki_invoke
    rw [if_neg (by omega)]
    rw [anki_attempts, hfail 0]
    rw [dif_pos (by omega)]
    rw [anki_attempts, hfail 1]
    rw [dif_pos (by omega)]
    rw [anki_attempts, hfail 2]
    rw [dif_neg (by omega)]
    rfl

/-- Witness for C3 with the concrete payload `42`. -/
theorem anki_invoke_transport_witness :
    anki_invoke (fun n => if n ≤ 1 then AnkiResp.urlError else .ok 42) 3 =
      ([2, 4], Except.ok 42) ∧
    anki_invoke (fun _ => (AnkiResp.urlError : AnkiResp Nat)) 3 =
      ([2, 4], Except.error "Cannot connect to Anki. Make sure Anki is running with Anki-Connect add-on installed (code: 2055492159)") :=
  anki_invoke_transport 42 _ _ rfl rfl rfl (fun _ => rfl)

/-! ## Orchestrator error isolation

Embedding of the batch loop of `main` (`generate_flashcards.py`, lines
573-588): each file is processed inside a `try`; on success the result is
appended, on an exception a failure record with the file and the message is
appended, and the loop continues with the next file. -/

/-- Outcome recorded for one item. -/
inductive Outcome (α β : Type) where
  | success : β → Outcome α β
  | failure : α → String → Outcome α β

/-- The record appended for one file: the result of `process_file`, or the
error record built in the `except` branch. -/
def outcomeOf {α β : Type} (proc : α → Except String β) (f : α) : Outcome α β :=
  match proc f with
  | Except.ok r => Outcome.success r
  | Except.error e => Outcome.failure f e

/-- The loop of `main`: results are accumulated by appending, one entry per
input file, and a failing item never aborts the loop. -/
def process_batch {α β : Type} (proc : α → Except String β) (files : List α) :
    List (Outcome α β) :=
  files.foldl (fun results f => results ++ [outcomeOf proc f]) []

theorem process_batch_eq_map {α β : Type} (proc : α → Except String β)
    (files : List α) : process_batch proc files = files.map (outcomeOf proc) := by
  suffices h : ∀ acc : List (Outcome α β),
      files.foldl (fun results f => results ++ [outcomeOf proc f]) acc =
        acc ++ files.map (outcomeOf proc) by
    simpa [process_batch] using h []
  induction files with
  | nil => intro acc; simp
  | cons f fs ih =>
    intro acc
    rw [List.foldl_cons, ih]
    simp

/-- Claim C4: for every batch, one outcome is recorded per input item, in
input order: a failing item contributes a failure record for that item and
processing continues with the following items.  In particular a 3-item batch
whose second item fails still processes item 3 and reports success, failure,
success in input order. -/
theorem process_batch_isolates {α β : Type} (proc : α → Except String β)
    (files : List α) :
    (process_batch proc files).length = files.length ∧
    (∀ i : Nat, (process_batch proc files).get? i =
      (files.get? i).map (outcomeOf proc)) ∧
    process_batch (fun n : Nat => if n = 2 then Except.error "parse" else Except.ok n)
        [1, 2, 3] =
      [Outcome.success 1, Outcome.failure 2 "parse", Outcome.success 3] := by
  refine ⟨?_, ?_, ?_⟩
  · rw [process_batch_eq_map]; simp
  · intro i
    rw [process_batch_eq_map]
    simp
  · rfl

/-! ## BackendSelector

Embedding of `is_gpu_available` (`transcribe.py`, lines 21-58) and the
backend decision of `main` (`transcribe.py`, lines 323-332). -/

/-- Outcome of the `nvidia-smi` probe: a completed process with its exit
code and standard output, a missing tool (`FileNotFoundError`), or any other
exception (including expiry of the 5-second timeout). -/
inductive Probe where
  | completed (returncode : Int) (stdout : List Char)
  | toolAbsent
  | excFailure

/-- Embedding of `is_gpu_available`: nonzero exit, nonempty stripped output
(at least one running compute process), a missing tool, or an exception all
report the GPU as unavailable. -/
def is_gpu_available : Probe → Bool
  | .completed rc out =>
    if rc ≠ 0 then false
    else if pyStrip out ≠ [] then false
    else true
  | .toolAbsent => false
  | .excFailure => false

/-- The `--fallback` mode of `transcribe.py`. -/
inductive FallbackMode where
  | auto
  | gemini
  | gpu

/-- The backend decision of `main`: forced modes are honored without
probing; `auto` probes the GPU.  `true` means the local GPU backend. -/
def decide_backend (fb : FallbackMode) (probe : Probe) : Bool :=
  match fb with
  | .gpu => true
  | .gemini => false
  | .auto => is_gpu_available probe

/-- Claim C8: a forced mode is honored identically for every probe outcome
(so no probe influences it); in auto mode a clean probe with no running
compute processes selects the local backend, and a busy probe, a nonzero
exit code, a missing tool, or a probe exception all select the remote
backend. -/
theorem decide_backend_spec :
    (∀ probe, decide_backend .gpu probe = true) ∧
    (∀ probe, decide_backend .gemini probe = false) ∧
    (∀ (rc : Int) (out : List Char),
      decide_backend .auto (.completed rc out) =
        (decide (rc = 0) && decide (pyStrip out = []))) ∧
    decide_backend .auto .toolAbsent = false ∧
    decide_backend .auto .excFailure = false := by
  refine ⟨fun _ => rfl, fun _ => rfl, ?_, rfl, rfl⟩
  intro rc out
  by_cases h1 : rc = 0 <;> by_cases h2 : pyStrip out = [] <;>
    simp [decide_backend, is_gpu_available, h1, h2]

/-! ## ResultDecoder

Embedding of the JSON-decode section of `generate_flashcards` (lines
443-491): strip the response, prefer the content of the first markdown
fence pair when a fence is present, locate the object with the brace scan,
repair escapes, parse as JSON, and require the `deck` and `cards` keys.
The failure classification of the source: no opening brace raises
`No JSON object found in response`; a `json.JSONDecodeError` is re-raised
as `LLM did not return valid JSON`; missing keys raise
`Response missing 'deck' or 'cards' field`. -/

/-- Split at the first occurrence of three backticks: the part before and
the part after them. -/
def splitTicks : List Char → Option (List Char × List Char)
  | [] => none
  | c :: rest =>
    if c = btick ∧ rest.take 2 = [btick, btick] then some ([], rest.drop 2)
    else (splitTicks rest).map fun p => (c :: p.1, p.2)

/-- Drop the optional `json` language tag after the opening fence. -/
def dropJsonTag (s : List Char) : List Char :=
  if s.take 4 = ['j', 's', 'o', 'n'] then s.drop 4 else s

/-- Markdown-fence handling: when the text contains a fence pair, the
stripped content between the first pair replaces the text; with no closing
fence the regex fails and the text is unchanged. -/
def stripFence (s : List Char) : List Char :=
  match splitTicks s with
  | none => s
  | some (_, afterOpen) =>
    match splitTicks (dropJsonTag afterOpen) with
    | none => s
    | some (content, _) => pyStrip content

/-- JSON values as parsed by the decoder.  Numbers and strings keep their
raw character content: the decoder only inspects shape and top-level keys. -/
inductive JV where
  | vnull : JV
  | vbool (b : Bool) : JV
  | vnum (raw : List Char) : JV
  | vstr (raw : List Char) : JV
  | varr (xs : List JV) : JV
  | vobj (kvs : List (List Char × JV)) : JV

/-- JSON inter-token whitespace. -/
def jws (c : Char) : Bool :=
  c == ' ' || c == '\t' || c == '\n' || c == '\r'

def skipWs (s : List Char) : List Char := s.dropWhile jws

def isHex (c : Char) : Bool :=
  c.isDigit || (decide ('a' ≤ c) && decide (c ≤ 'f')) ||
    (decide ('A' ≤ c) && decide (c ≤ 'F'))

/-- Modelled from the spec: the string-literal fragment of the "standard
structured-data parse" (`json.loads`, an external collaborator).  Consumes a
string body after the opening quote; valid escapes only, `\u` requires 4 hex
digits, raw control characters are rejected (strict mode). -/
def parseStrBody : List Char → Option (List Char × List Char)
  | [] => none
  | c :: rest =>
    if c = '"' then some ([], rest)
    else if c = '\\' then
      match rest with
      | [] => none
      | d :: rest2 =>
        if d = 'u' then
          if (rest2.take 4).length == 4 && (rest2.take 4).all isHex then
            (parseStrBody (rest2.drop 4)).map fun p =>
              (c :: d :: (rest2.take 4 ++ p.1), p.2)
          else none
        else if validEsc d then
          (parseStrBody rest2).map fun p => (c :: d :: p.1, p.2)
        else none
    else if c.toNat < 32 then none
    else (parseStrBody rest).map fun p => (c :: p.1, p.2)
  termination_by s => s.length

/-- Modelled from the spec: the number fragment of `json.loads`
(`-? int frac? exp?`). -/
def parseNum (s : List Char) : Option (JV × List Char) :=
  let sgns : List Char × List Char :=
    match s with
    | '-' :: t => (['-'], t)
    | _ => ([], s)
  match hs : sgns.2 with
  | [] => none
  | c :: rest =>
    if ¬ c.isDigit then none
    else
      let ipr : List Char × List Char :=
        if c = '0' then (['0'], rest)
        else (c :: rest.takeWhile Char.isDigit, rest.dropWhile Char.isDigit)
      let fr : Option (List Char × List Char) :=
        match ipr.2 with
        | '.' :: r2 =>
          let ds := r2.takeWhile Char.isDigit
          if ds = [] then none else some ('.' :: ds, r2.dropWhile Char.isDigit)
        | _ => some ([], ipr.2)
      match fr with
      | none => none
      | some (fpart, r3) =>
        let ex : Option (List Char × List Char) :=
          match r3 with
          | e :: r4 =>
            if e = 'e' ∨ e = 'E' then
              let sg2 : List Char × List Char :=
                match r4 with
                | '+' :: r6 => (['+'], r6)
                | '-' :: r6 => (['-'], r6)
                | _ => ([], r4)
              let ds := sg2.2.takeWhile Char.isDigit
              if ds = [] then none
              else some (e :: (sg2.1 ++ ds), sg2.2.dropWhile Char.isDigit)
            else some ([], r3)
          | [] => some ([], r3)
        match ex with
        | none => none
        | some (epart, r7) =>
          some (JV.vnum (sgns.1 ++ ipr.1 ++ fpart ++ epart), r7)

mutual

/-- Modelled from the spec: recursive-descent value parser of `json.loads`,
with fuel bounding the recursion depth. -/
def parseVal : Nat → List Char → Option (JV × List Char)
  | 0, _ => none
  | fuel + 1, s =>
    match skipWs s with
    | [] => none
    | c :: rest =>
      if c = '{' then
        match skipWs rest with
        | '}' :: rest2 => some (JV.vobj [], rest2)
        | _ => (parseMembers fuel rest).map fun p => (JV.vobj p.1, p.2)
      else if c = '[' then
        match skipWs rest with
        | ']' :: rest2 => some (JV.varr [], rest2)
        | _ => (parseElems fuel rest).map fun p => (JV.varr p.1, p.2)
      else if c = '"' then
        (parseStrBody rest).map fun p => (JV.vstr p.1, p.2)
      else if c = 't' then
        if rest.take 3 = ['r', 'u', 'e'] then some (JV.vbool true, rest.drop 3)
        else none
      else if c = 'f' then
        if rest.take 4 = ['a', 'l', 's', 'e'] then some (JV.vbool false, rest.drop 4)
        else none
      else if c = 'n' then
        if rest.take 3 = ['u', 'l', 'l'] then some (JV.vnull, rest.drop 3)
        else none
      else parseNum (c :: rest)

/-- Nonempty member list of an object, up to and including the closing
brace. -/
def parseMembers : Nat → List Char → Option (List (List Char × JV) × List Char)
  | 0, _ => none
  | fuel + 1, s =>
    match skipWs s with
    | '"' :: rest =>
      match parseStrBody rest with
      | none => none
      | some (k, rest2) =>
        match skipWs rest2 with
        | ':' :: rest3 =>
          match parseVal fuel rest3 with
          | none => none
          | some (v, rest4) =>
            match skipWs rest4 with
            | ',' :: rest5 =>
              (parseMembers fuel rest5).map fun p => ((k, v) :: p.1, p.2)
            | '}' :: rest5 => some ([(k, v)], rest5)
            | _ => none
        | _ => none
    | _ => none

/-- Nonempty element list of an array, up to and including the closing
bracket. -/
def parseElems : Nat → List Char → Option (List JV × List Char)
  | 0, _ => none
  | fuel + 1, s =>
    match parseVal fuel s with
    | none => none
    | some (v, rest) =>
      match skipWs rest with
      | ',' :: rest2 => (parseElems fuel rest2).map fun p => (v :: p.1, p.2)
      | ']' :: rest2 => some ([v], rest2)
      | _ => none

end

/-- Modelled from the spec: `json.loads` — the whole input must be a single
JSON value surrounded only by whitespace. -/
def jsonParse (s : List Char) : Option JV :=
  match parseVal (s.length + 1) s with
  | none => none
  | some (v, rest) => if skipWs rest = [] then some v else none

/-- The three decode failures of the source, in raising order. -/
inductive DecodeErr where
  | noJson : DecodeErr
  | parseFail : DecodeErr
  | missingKeys : DecodeErr
deriving DecidableEq

def deckKey : List Char := ['d', 'e', 'c', 'k']

def cardsKey : List Char := ['c', 'a', 'r', 'd', 's']

/-- Top-level key membership (`'deck' in data`); non-mapping values are
treated as lacking the required keys. -/
def hasKey (v : JV) (k : List Char) : Bool :=
  match v with
  | JV.vobj kvs => kvs.any fun p => p.1 == k
  | _ => false

/-- The decode pipeline of `generate_flashcards`. -/
def decode_response (resp : List Char) : Except DecodeErr JV :=
  let r := stripFence (pyStrip resp)
  match extractObj r with
  | none => Except.error DecodeErr.noJson
  | some js =>
    match jsonParse (fix_json_escapes js) with
    | none => Except.error DecodeErr.parseFail
    | some v =>
      if hasKey v deckKey ∧ hasKey v cardsKey then Except.ok v
      else Except.error DecodeErr.missingKeys

/-- Claim C9 (counterexample): the truncated case is not classified as a
distinct Truncated failure.  The truncated object `\x7b` (depth counter never
returns to zero, the extractor yields the empty substring) produces exactly
the same JSON-parse failure as the non-truncated malformed object `\x7b]\x7d`:
both are `parseFail`, so truncation shares its classification with ordinary
parse errors. -/
theorem decode_truncated_cex :
    decode_response ['{'] = Except.error DecodeErr.parseFail ∧
    decode_response ['{', ']', '}'] = Except.error DecodeErr.parseFail := by
  have hf0 : fix_json_escapes ([] : List Char) = [] := by
    simp [fix_json_escapes]
  have hf3 : fix_json_escapes ['{', ']', '}'] = ['{', ']', '}'] := by
    rw [fix_step_plain _ (by decide), fix_step_plain _ (by decide),
      fix_step_plain _ (by decide)]
    simp [fix_json_escapes]
  constructor
  · have hs : stripFence (pyStrip ['{']) = ['{'] := by decide
    have he : extractObj ['{'] = some [] := by decide
    have hp : jsonParse ([] : List Char) = none :=
      Option.isNone_iff_eq_none.mp (by decide)
    simp [decode_response, hs, he, hf0, hp]
  · have hs : stripFence (pyStrip ['{', ']', '}']) = ['{', ']', '}'] := by decide
    have he : extractObj ['{', ']', '}'] = some ['{', ']', '}'] := by decide
    have hp : jsonParse ['{', ']', '}'] = none :=
      Option.isNone_iff_eq_none.mp (by decide)
    simp [decode_response, hs, he, hf3, hp]

/-- Claim C9 (amended): if the preprocessed response text contains no opening
brace the decoder fails with the distinct not-found error, without a parse
attempt; if the brace-depth counter never returns to zero (truncated object)
the decoder also fails rather than returning a partial object, surfacing the
generic JSON-parse failure on the empty extracted substring — an error
distinct from the not-found one, though not a bespoke Truncated
classification. -/
theorem decode_failure_classification (s : List Char) :
    (findBrace (stripFence (pyStrip s)) = none →
      decode_response s = Except.error DecodeErr.noJson) ∧
    (∀ i : Nat, findBrace (stripFence (pyStrip s)) = some i →
      scanEnd ((stripFence (pyStrip s)).drop i) 0 0 = none →
      decode_response s = Except.error DecodeErr.parseFail) := by
  have hf0 : fix_json_escapes ([] : List Char) = [] := by
    simp [fix_json_escapes]
  have hp : jsonParse ([] : List Char) = none :=
    Option.isNone_iff_eq_none.mp (by decide)
  constructor
  · intro h
    simp [decode_response, extractObj, h]
  · intro i h1 h2
    simp [decode_response, extractObj, h1, h2, hf0, hp]

/-- Witness for C9 (amended): a response with no brace at all is NotFound; a
response that is a lone opening brace is a parse failure. -/
theorem decode_failure_classification_witness :
    decode_response ['h', 'i'] = Except.error DecodeErr.noJson ∧
    decode_response ['{'] = Except.error DecodeErr.parseFail :=
  ⟨(decode_failure_classification ['h', 'i']).1 (by decide),
   (decode_failure_classification ['{']).2 0 (by decide) (by decide)⟩

end Abc
